import Mathlib

/-!
Verification of the dynamiqs time-dependent operator abstraction
(`src/dynamiqs/time_array.py`), its Lindbladian evaluator
(`src/dynamiqs/mesolve/me_solver.py`) and the conversion utility
(`src/torchqdynamics/types.py`) against their natural-language
specification.

The embedding is shallow: JAX/torch complex scalars are modelled by
complex numbers with rational components (`Cx`), n-by-n operator
matrices by `Matrix (Fin n) (Fin n) Cx`, batched scalar coefficients by
functions from an abstract batch-index type `B`, Python exceptions by
`Except`/`Option`, and `NotImplemented`-driven binary-operator dispatch
by `Option`-valued operations with the reflected-operand fallback made
explicit.
-/

/-- Complex numbers with rational real and imaginary parts: the scalar
type of the embedding (models the complex dtypes used by the sources,
exactly, with no floating-point rounding). -/
@[ext]
structure Cx where
  re : ℚ
  im : ℚ
deriving DecidableEq, Repr

namespace Cx

def add (z w : Cx) : Cx := ⟨z.re + w.re, z.im + w.im⟩

def mul (z w : Cx) : Cx := ⟨z.re * w.re - z.im * w.im, z.re * w.im + z.im * w.re⟩

def neg (z : Cx) : Cx := ⟨-z.re, -z.im⟩

/-- Complex conjugation (`.conj()` on scalars in the sources). -/
def conj (z : Cx) : Cx := ⟨z.re, -z.im⟩

/-- The imaginary unit `1j`. -/
def I : Cx := ⟨0, 1⟩

instance : Zero Cx := ⟨⟨0, 0⟩⟩

instance : One Cx := ⟨⟨1, 0⟩⟩

instance : Add Cx := ⟨add⟩

instance : Mul Cx := ⟨mul⟩

instance : Neg Cx := ⟨neg⟩

@[simp] theorem add_re (z w : Cx) : (z + w).re = z.re + w.re := rfl

@[simp] theorem add_im (z w : Cx) : (z + w).im = z.im + w.im := rfl

@[simp] theorem mul_re (z w : Cx) : (z * w).re = z.re * w.re - z.im * w.im := rfl

@[simp] theorem mul_im (z w : Cx) : (z * w).im = z.re * w.im + z.im * w.re := rfl

@[simp] theorem neg_re (z : Cx) : (-z).re = -z.re := rfl

@[simp] theorem neg_im (z : Cx) : (-z).im = -z.im := rfl

@[simp] theorem zero_re : (0 : Cx).re = 0 := rfl

@[simp] theorem zero_im : (0 : Cx).im = 0 := rfl

@[simp] theorem one_re : (1 : Cx).re = 1 := rfl

@[simp] theorem one_im : (1 : Cx).im = 0 := rfl

instance : CommRing Cx where
  add_assoc a b c := by ext <;> simp <;> ring
  zero_add a := by ext <;> simp
  add_zero a := by ext <;> simp
  add_comm a b := by ext <;> simp <;> ring
  left_distrib a b c := by ext <;> simp <;> ring
  right_distrib a b c := by ext <;> simp <;> ring
  zero_mul a := by ext <;> simp
  mul_zero a := by ext <;> simp
  mul_assoc a b c := by ext <;> simp <;> ring
  one_mul a := by ext <;> simp
  mul_one a := by ext <;> simp
  neg_add_cancel a := by ext <;> simp
  mul_comm a b := by ext <;> simp <;> ring
  nsmul := nsmulRec
  zsmul := zsmulRec

instance : StarRing Cx where
  star := conj
  star_involutive z := by ext <;> simp only [conj, neg_neg]
  star_mul z w := by ext <;> simp [conj] <;> ring
  star_add z w := by ext <;> simp [conj] <;> ring

@[simp] theorem star_re (z : Cx) : (star z).re = z.re := rfl

@[simp] theorem star_im (z : Cx) : (star z).im = -z.im := rfl

end Cx

/-- An `n`-by-`n` operator matrix (the trailing two dimensions of the
arrays handled by the sources). -/
abbrev Mat (n : ℕ) := Matrix (Fin n) (Fin n) Cx

open scoped Matrix

/-! ## Factors (`_PWCFactor`, `_ModulatedFactor`)

A factor produces a batched scalar value at each queried time.  The
batch shape `(...)` of the sources is modelled by an abstract batch
index type `B`: a batched scalar of shape `(...)` is a function
`B → Cx`. -/

/-- A piecewise-constant factor (source class `_PWCFactor`): `times`
holds the `nv+1` breakpoints and `values` holds one batched constant
value per interval (the source stores them as one array of shape
`(..., nv)` whose trailing axis is the interval axis). -/
structure PWCFactor (B : Type) where
  times : List ℚ
  values : List (B → Cx)

namespace PWCFactor

/-- `self.nv = self.values.shape[-1]`, the number of time intervals. -/
def nv {B : Type} (p : PWCFactor B) : ℕ := p.values.length

/-- `_PWCFactor.__call__`: zero outside `[times[0], times[-1])`, else
the value of the interval found with `jnp.searchsorted(times, t,
side='right') - 1`.  `searchsorted` with `side='right'` on a sorted
array returns the smallest index `i` with `t < times[i]` (or the length
when there is none), which is `List.findIdx` of that predicate. -/
def call {B : Type} (p : PWCFactor B) (t : ℚ) : B → Cx :=
  if t < p.times.getD 0 0 ∨ p.times.getD (p.times.length - 1) 0 ≤ t then
    fun _ => 0
  else
    p.values.getD (p.times.findIdx (fun x => decide (t < x)) - 1) (fun _ => 0)

/-- `_PWCFactor.conj`: same breakpoints, values conjugated. -/
def conj {B : Type} (p : PWCFactor B) : PWCFactor B :=
  ⟨p.times, p.values.map (fun v b => star (v b))⟩

end PWCFactor

/-- A modulated factor (source class `_ModulatedFactor`): a callable
`f` and the cached `f0 = f(0.0)` which fixes the output shape. -/
structure ModulatedFactor (B : Type) where
  f : ℚ → B → Cx
  f0 : B → Cx

namespace ModulatedFactor

/-- `_ModulatedFactor.__call__`: `f(t).reshape(self.shape)`.  In the
shapeless embedding the reshape to the factor's own fixed shape is the
identity. -/
def call {B : Type} (m : ModulatedFactor B) (t : ℚ) : B → Cx := m.f t

def conj {B : Type} (m : ModulatedFactor B) : ModulatedFactor B :=
  ⟨fun t b => star (m.f t b), fun b => star (m.f0 b)⟩

end ModulatedFactor

/-- The two `_Factor` implementations. -/
inductive Factor (B : Type) where
  | pwc (p : PWCFactor B)
  | modulated (m : ModulatedFactor B)

namespace Factor

def call {B : Type} : Factor B → ℚ → B → Cx
  | .pwc p => p.call
  | .modulated m => m.call

/-- The `x.times` attribute read by `PWCTimeArray.__init__` off each of
its factors.  A modulated factor has no such attribute (the source
would raise `AttributeError`); PWC composites only ever hold PWC
factors, so that case is unreachable in the source and is mapped to the
empty list here. -/
def pwcTimes {B : Type} : Factor B → List ℚ
  | .pwc p => p.times
  | .modulated _ => []

end Factor

/-! ## Composite time arrays (`FactorTimeArray`) -/

/-- A composite time array (source class `FactorTimeArray`): a
non-empty list of `nf` factors, a stack of `nf` base matrices (source
shape `(nf, n, n)`), and the static residual matrix (source shape
`(n, n)`, zero when the constructor receives `static=None`). -/
structure FactorTimeArray (B : Type) (n : ℕ) where
  factors : List (Factor B)
  arrays : List (Mat n)
  static : Mat n

namespace FactorTimeArray

/-- The well-formedness invariant maintained by every constructor call
in the source: one base matrix per factor. -/
def wf {B : Type} {n : ℕ} (A : FactorTimeArray B n) : Prop :=
  A.factors.length = A.arrays.length

/-- `FactorTimeArray.__call__`: stack all factor values at `t` into an
array of shape `(..., nf)`, reshape to `(..., nf, 1, 1)`,
broadcast-multiply with the `(nf, n, n)` base-matrix stack, sum the
factor axis and add the static residual.  Modelled entrywise: entry
`(i, j)` of the result is the sum over the factor axis of
`factor_k(t) * arrays[k][i, j]`, plus `static[i, j]`. -/
def call {B : Type} {n : ℕ} (A : FactorTimeArray B n) (t : ℚ) (b : B) : Mat n :=
  Matrix.of fun i j =>
    (List.zipWith (fun (v : Cx) (M : Mat n) => v * M i j)
        (A.factors.map (fun f => f.call t b)) A.arrays).sum
      + A.static i j

/-- `FactorTimeArray.shape`: the source computes
`tuple(self.factors[0].shape, self.n, self.n)`.  Python's `tuple`
constructor accepts at most one argument, so this raises
`TypeError: tuple expected at most 1 argument, got 3` unconditionally,
for every composite time array. -/
def shape {B : Type} {n : ℕ} (_ : FactorTimeArray B n) : Except String (List ℕ) :=
  Except.error "TypeError: tuple expected at most 1 argument, got 3"

/-- `FactorTimeArray.__add__` on an array-like (or constant) operand:
same factors, same base matrices, operand absorbed into the static
residual. -/
def addArr {B : Type} {n : ℕ} (A : FactorTimeArray B n) (y : Mat n) :
    FactorTimeArray B n :=
  ⟨A.factors, A.arrays, A.static + y⟩

/-- `jnp.unique`: the sorted unique values of an array. -/
def jnpUnique (xs : List ℚ) : List ℚ :=
  xs.toFinset.sort (· ≤ ·)

/-- `PWCTimeArray.__init__`: `self.times =
jnp.unique(jnp.concatenate([x.times for x in self.factors]))`. -/
def mergedTimes {B : Type} {n : ℕ} (A : FactorTimeArray B n) : List ℚ :=
  jnpUnique (A.factors.map Factor.pwcTimes).flatten

end FactorTimeArray

/-! ## The `TimeArray` variants -/

/-- The four concrete `TimeArray` variants.  `constant` wraps a fixed
matrix; `callable` wraps a time function together with its cached
`f0 = f(0.0)`; `pwc` and `modulated` are the two composite subclasses
of `FactorTimeArray` (they share all their code, but `__add__`
distinguishes them through `isinstance(y, self.__class__)`, and only
`pwc` carries merged breakpoint times). -/
inductive TimeArray (B : Type) (n : ℕ) where
  | constant (x : Mat n)
  | callable (f : ℚ → Mat n) (f0 : Mat n)
  | pwc (A : FactorTimeArray B n)
  | modulated (A : FactorTimeArray B n)

/-- The right operand of the binary `+`/`-` operators: either a plain
array or another time array. -/
inductive Operand (B : Type) (n : ℕ) where
  | arr (y : Mat n)
  | ta (T : TimeArray B n)

namespace TimeArray

/-- `__call__` per variant.  `ConstantTimeArray` returns the stored
array regardless of `t`; `CallableTimeArray` returns `f(t)` reshaped to
the fixed shape (the identity here); the composites evaluate the
weighted factor sum. -/
def call {B : Type} {n : ℕ} : TimeArray B n → ℚ → B → Mat n
  | .constant x, _, _ => x
  | .callable f _, t, _ => f t
  | .pwc A, t, b => A.call t b
  | .modulated A, t, b => A.call t b

/-- `__neg__` per variant.  The composites negate the base-matrix stack
and the static residual, keeping the factors. -/
def neg {B : Type} {n : ℕ} : TimeArray B n → TimeArray B n
  | .constant x => .constant (-x)
  | .callable f f0 => .callable (fun t => -(f t)) (-f0)
  | .pwc A => .pwc ⟨A.factors, A.arrays.map (fun M => -M), -A.static⟩
  | .modulated A => .modulated ⟨A.factors, A.arrays.map (fun M => -M), -A.static⟩

/-- The `mT` property.  `ConstantTimeArray` and `CallableTimeArray`
transpose the last two dimensions of their stored data.
`FactorTimeArray` never overrides `mT`; since `TimeArray` is not an
abstract base class (no `ABCMeta`), accessing `.mT` on a composite
invokes the inherited property, whose body is only a docstring, and
evaluates to `None` rather than a `TimeArray` — modelled as `none`. -/
def mT {B : Type} {n : ℕ} : TimeArray B n → Option (TimeArray B n)
  | .constant x => some (.constant x.transpose)
  | .callable f f0 => some (.callable (fun t => (f t).transpose) f0.transpose)
  | .pwc _ => none
  | .modulated _ => none

/-- The `__add__` method of the left operand alone (no reflected
fallback): `none` models a `NotImplemented` return. -/
def addPrim {B : Type} {n : ℕ} : TimeArray B n → Operand B n → Option (TimeArray B n)
  | .constant x, .arr y => some (.constant (x + y))
  | .constant x, .ta (.constant y) => some (.constant (x + y))
  | .constant _, .ta _ => none
  | .callable f f0, .arr y => some (.callable (fun t => f t + y) (f0 + y))
  | .callable f f0, .ta (.constant y) => some (.callable (fun t => f t + y) (f0 + y))
  | .callable f f0, .ta (.callable g g0) => some (.callable (fun t => f t + g t) (f0 + g0))
  | .callable _ _, .ta _ => none
  | .pwc A, .arr y => some (.pwc (A.addArr y))
  | .pwc A, .ta (.constant y) => some (.pwc (A.addArr y))
  | .pwc A, .ta (.pwc A2) =>
      some (.pwc ⟨A.factors ++ A2.factors, A.arrays ++ A2.arrays, A.static + A2.static⟩)
  | .pwc _, .ta _ => none
  | .modulated A, .arr y => some (.modulated (A.addArr y))
  | .modulated A, .ta (.constant y) => some (.modulated (A.addArr y))
  | .modulated A, .ta (.modulated A2) =>
      some (.modulated ⟨A.factors ++ A2.factors, A.arrays ++ A2.arrays, A.static + A2.static⟩)
  | .modulated _, .ta _ => none

/-- The full Python `A + y` operator: try `A.__add__(y)`, and on
`NotImplemented` fall back to the right operand's `__radd__`, which the
source defines as `self + y` again, i.e. `y.__add__(A)`.  If both
return `NotImplemented` Python raises `TypeError` (`none`). -/
def addOp {B : Type} {n : ℕ} (A : TimeArray B n) (y : Operand B n) :
    Option (TimeArray B n) :=
  match A.addPrim y with
  | some R => some R
  | none =>
    match y with
    | .ta Y => Y.addPrim (.ta A)
    | .arr _ => none

/-- `TimeArray.__sub__`: `self + (-y)` — derived from `add` and
`negate`, not re-implemented per variant. -/
def subOp {B : Type} {n : ℕ} (A : TimeArray B n) (y : Operand B n) :
    Option (TimeArray B n) :=
  A.addOp
    (match y with
     | .arr m => .arr (-m)
     | .ta Y => .ta Y.neg)

/-- `TimeArray.__rsub__` (the operator `y - A` reaching the time
array's reflected hook): `y + (-self)`.  When `y` is itself a time
array this is its full `+` operator; when `y` is a plain array the sum
again reaches `(-A).__radd__`, i.e. `(-A) + y`. -/
def rsubOp {B : Type} {n : ℕ} (A : TimeArray B n) (y : Operand B n) :
    Option (TimeArray B n) :=
  match y with
  | .arr m => A.neg.addOp (.arr m)
  | .ta Y => Y.addOp (.ta A.neg)

/-- Well-formedness per variant. -/
def wf {B : Type} {n : ℕ} : TimeArray B n → Prop
  | .constant _ => True
  | .callable _ _ => True
  | .pwc A => A.wf
  | .modulated A => A.wf

end TimeArray

namespace Operand

/-- Evaluation of an operand at a time (a plain array is constant). -/
def call {B : Type} {n : ℕ} : Operand B n → ℚ → B → Mat n
  | .arr y, _, _ => y
  | .ta T, t, b => T.call t b

def wf {B : Type} {n : ℕ} : Operand B n → Prop
  | .arr _ => True
  | .ta T => T.wf

end Operand

/-! ## Helper lemmas -/

theorem listSum_apply {n : ℕ} (L : List (Mat n)) (i j : Fin n) :
    L.sum i j = (L.map fun M => M i j).sum := by
  induction L with
  | nil => rfl
  | cons M L ih => simp [List.sum_cons, Matrix.add_apply, ih]

theorem FactorTimeArray.addArr_call {B : Type} {n : ℕ} (A : FactorTimeArray B n)
    (y : Mat n) (t : ℚ) (b : B) :
    (A.addArr y).call t b = A.call t b + y := by
  refine Matrix.ext fun i j => ?_
  simp only [FactorTimeArray.call, addArr, Matrix.of_apply, Matrix.add_apply]
  ring

/-- The sorted deduplicated union of two breakpoint lists, stated the
way the specification words it. -/
def sortedDedupUnion (xs ys : List ℚ) : List ℚ :=
  (xs.toFinset ∪ ys.toFinset).sort (· ≤ ·)

/-! ## Claim theorems: composite evaluation and algebra -/

/-- C1: for every composite `TimeArray` (PWC or Modulated) with factors
`factor_1..factor_nf`, stacked base matrices `base_1..base_nf` and
static residual `S`, the call at any time `t` (and any batch index `b`)
is the weighted sum `Σ_i factor_i(t) · base_i` plus `S`. -/
theorem FactorTimeArray.call_eq_weighted_sum {B : Type} {n : ℕ}
    (A : FactorTimeArray B n) (t : ℚ) (b : B) :
    (TimeArray.pwc A).call t b
        = (List.zipWith (fun (f : Factor B) (M : Mat n) => f.call t b • M)
            A.factors A.arrays).sum + A.static
      ∧ (TimeArray.modulated A).call t b
        = (List.zipWith (fun (f : Factor B) (M : Mat n) => f.call t b • M)
            A.factors A.arrays).sum + A.static := by
  have key : A.call t b
      = (List.zipWith (fun (f : Factor B) (M : Mat n) => f.call t b • M)
          A.factors A.arrays).sum + A.static := by
    refine Matrix.ext fun i j => ?_
    simp [FactorTimeArray.call, Matrix.add_apply, listSum_apply,
      List.map_zipWith, List.zipWith_map_left, Matrix.smul_apply, smul_eq_mul]
  exact ⟨key, key⟩

/-- C3: the source of `FactorTimeArray.shape` calls Python's `tuple`
constructor with three arguments, so instead of returning the tuple
`(..., n, n)` it raises `TypeError` on every composite time array
(and `ndim`, which evaluates `len(self.shape)`, propagates the same
error). -/
theorem FactorTimeArray.shape_always_raises {B : Type} {n : ℕ}
    (A : FactorTimeArray B n) :
    A.shape = Except.error "TypeError: tuple expected at most 1 argument, got 3" :=
  rfl

/-- C4: `mT` is implemented for the Constant and Callable variants,
where it transposes the evaluation's last two dimensions, but
`FactorTimeArray` never overrides the abstract `mT` property and
`TimeArray` is not an ABC, so on the PWC and Modulated composite
variants `mT` evaluates to `None` instead of a `TimeArray`. -/
theorem TimeArray.mT_only_leaf_variants {B : Type} {n : ℕ} :
    (∀ x : Mat n, ∃ T : TimeArray B n,
        (TimeArray.constant x : TimeArray B n).mT = some T ∧
        ∀ t b, T.call t b = ((TimeArray.constant x : TimeArray B n).call t b).transpose)
    ∧ (∀ (f : ℚ → Mat n) (f0 : Mat n), ∃ T : TimeArray B n,
        (TimeArray.callable f f0 : TimeArray B n).mT = some T ∧
        ∀ t b, T.call t b = ((TimeArray.callable f f0 : TimeArray B n).call t b).transpose)
    ∧ (∀ A : FactorTimeArray B n,
        (TimeArray.pwc A).mT = none ∧ (TimeArray.modulated A).mT = none) := by
  refine ⟨fun x => ⟨.constant x.transpose, rfl, fun t b => rfl⟩,
    fun f f0 => ⟨.callable (fun t => (f t).transpose) f0.transpose, rfl, fun t b => rfl⟩,
    fun A => ⟨rfl, rfl⟩⟩

/-- C5: adding two PWC composites concatenates the factor lists (the
result has `nf1 + nf2` factors) and base-matrix stacks, sums the static
residuals, and the merged breakpoint times of the result are the sorted
deduplicated union of both inputs' breakpoints. -/
theorem TimeArray.pwc_add_pwc {B : Type} {n : ℕ} (A1 A2 : FactorTimeArray B n) :
    (TimeArray.pwc A1).addOp (.ta (.pwc A2))
      = some (.pwc ⟨A1.factors ++ A2.factors, A1.arrays ++ A2.arrays,
          A1.static + A2.static⟩)
    ∧ (A1.factors ++ A2.factors).length = A1.factors.length + A2.factors.length
    ∧ FactorTimeArray.mergedTimes
        (⟨A1.factors ++ A2.factors, A1.arrays ++ A2.arrays,
          A1.static + A2.static⟩ : FactorTimeArray B n)
      = sortedDedupUnion A1.mergedTimes A2.mergedTimes := by
  refine ⟨rfl, A1.factors.length_append A2.factors, ?_⟩
  simp [FactorTimeArray.mergedTimes, FactorTimeArray.jnpUnique, sortedDedupUnion,
    List.map_append, List.flatten_append, List.toFinset_append, Finset.sort_toFinset]

/-- C6: adding a plain array or a Constant time array to a composite
keeps the composite variant, the factor list and the base-matrix stack
unchanged (the factor count never grows); only the static residual
changes, and the call at every time reflects the sum. -/
theorem FactorTimeArray.add_constant_absorbed {B : Type} {n : ℕ}
    (A : FactorTimeArray B n) (y : Mat n) (t : ℚ) (b : B) :
    ((TimeArray.pwc A).addOp (.arr y) = some (.pwc (A.addArr y))
      ∧ (TimeArray.pwc A).addOp (.ta (.constant y)) = some (.pwc (A.addArr y))
      ∧ (TimeArray.modulated A).addOp (.arr y) = some (.modulated (A.addArr y))
      ∧ (TimeArray.modulated A).addOp (.ta (.constant y))
          = some (.modulated (A.addArr y)))
    ∧ (A.addArr y).factors = A.factors
    ∧ (A.addArr y).arrays = A.arrays
    ∧ (A.addArr y).static = A.static + y
    ∧ (A.addArr y).call t b = A.call t b + y :=
  ⟨⟨rfl, rfl, rfl, rfl⟩, rfl, rfl, rfl, A.addArr_call y t b⟩

/-! ## PWC factor lookup (C2) -/

theorem sorted_getD_mono {l : List ℚ} (h : l.Sorted (· < ·)) {i j : ℕ}
    (hij : i ≤ j) (hj : j < l.length) : l.getD i 0 ≤ l.getD j 0 := by
  have hi : i < l.length := lt_of_le_of_lt hij hj
  rcases Nat.lt_or_ge i j with hlt | hge
  · rw [List.getD_eq_get _ _ hi, List.getD_eq_get _ _ hj]
    exact le_of_lt (h.rel_get_of_lt hlt)
  · have heq : i = j := le_antisymm hij hge
    subst heq
    rfl

/-- C2: a PWC factor with strictly increasing breakpoints returns the
zero value of the batch shape for any query left of `times[0]` or at or
right of `times[-1]` (in particular exactly at `t = times[-1]`), and
returns `values[k]` for the unique `k` with `times[k] ≤ t < times[k+1]`
on any in-range query. -/
theorem PWCFactor.call_spec {B : Type} (p : PWCFactor B) (t : ℚ)
    (hsorted : p.times.Sorted (· < ·))
    (hlen : p.values.length + 1 = p.times.length)
    (h2 : 2 ≤ p.times.length) :
    ((t < p.times.getD 0 0 ∨ p.times.getD (p.times.length - 1) 0 ≤ t) →
        p.call t = fun _ => (0 : Cx))
    ∧ (∀ k, k + 1 < p.times.length →
        p.times.getD k 0 ≤ t → t < p.times.getD (k + 1) 0 →
        p.call t = p.values.getD k (fun _ => 0)
        ∧ ∀ k', k' + 1 < p.times.length →
            p.times.getD k' 0 ≤ t → t < p.times.getD (k' + 1) 0 → k' = k) := by
  constructor
  · intro h
    unfold PWCFactor.call
    rw [if_pos h]
  · intro k hk hkle hklt
    have hkl : k < p.times.length := Nat.lt_of_succ_lt hk
    have hnotlow : ¬ t < p.times.getD 0 0 := by
      have h0k : p.times.getD 0 0 ≤ p.times.getD k 0 :=
        sorted_getD_mono hsorted (Nat.zero_le k) hkl
      exact not_lt.mpr (le_trans h0k hkle)
    have hnothigh : ¬ p.times.getD (p.times.length - 1) 0 ≤ t := by
      have hk1 : k + 1 ≤ p.times.length - 1 := by omega
      have hlast : p.times.length - 1 < p.times.length := by omega
      have : p.times.getD (k + 1) 0 ≤ p.times.getD (p.times.length - 1) 0 :=
        sorted_getD_mono hsorted hk1 hlast
      exact not_le.mpr (lt_of_lt_of_le hklt this)
    have hcond : ¬ (t < p.times.getD 0 0 ∨ p.times.getD (p.times.length - 1) 0 ≤ t) := by
      intro h
      exact h.elim hnotlow hnothigh
    have hfind : p.times.findIdx (fun x => decide (t < x)) = k + 1 := by
      rw [List.findIdx_eq hk]
      constructor
      · rw [← List.getD_eq_getElem p.times 0 hk]
        exact decide_eq_true hklt
      · intro j hj
        have hjk : j ≤ k := Nat.lt_succ_iff.mp hj
        have : p.times.getD j 0 ≤ p.times.getD k 0 :=
          sorted_getD_mono hsorted hjk hkl
        rw [← List.getD_eq_getElem p.times 0 (Nat.lt_trans hj hk)]
        exact decide_eq_false (not_lt.mpr (le_trans this hkle))
    constructor
    · unfold PWCFactor.call
      rw [if_neg hcond, hfind]
      simp
    · intro k' hk' hk'le hk'lt
      by_contra hne
      rcases Nat.lt_or_ge k' k with hlt | hge
      · have hb : k' + 1 ≤ k := hlt
        have : p.times.getD (k' + 1) 0 ≤ p.times.getD k 0 :=
          sorted_getD_mono hsorted hb hkl
        exact absurd (lt_of_lt_of_le hk'lt (le_trans this hkle)) (lt_irrefl t)
      · have hlt2 : k < k' := lt_of_le_of_ne hge (fun h => hne h.symm)
        have hb : k + 1 ≤ k' := hlt2
        have hk'l : k' < p.times.length := Nat.lt_of_succ_lt hk'
        have : p.times.getD (k + 1) 0 ≤ p.times.getD k' 0 :=
          sorted_getD_mono hsorted hb hk'l
        exact absurd (lt_of_lt_of_le hklt (le_trans this hk'le)) (lt_irrefl t)

/-- Concrete PWC factor for the lookup witness: breakpoints
`[0, 1, 2]`, interval values `[2, 3]`, unbatched (`B = Unit`). -/
def pwcExample : PWCFactor Unit :=
  ⟨[0, 1, 2], [fun _ => Cx.mk 2 0, fun _ => Cx.mk 3 0]⟩

theorem PWCFactor.call_spec_witness :
    pwcExample.call 0 = fun _ => Cx.mk 2 0 :=
  ((PWCFactor.call_spec pwcExample 0 (by decide) (by decide) (by decide)).2
    0 (by decide) (by decide) (by decide)).1

/-! ## Lindbladian evaluator (`MESolver`, C7) -/

/-- Modelled from the spec: `kraus_map` is imported from
`utils/solver_utils`, which is not among the sources; the spec defines
the Kraus map as `Σ_k L_k ρ L_k†` (the "jump" contribution to the
dissipator). -/
def kraus_map {n : ℕ} (rho : Mat n) (ops : List (Mat n)) : Mat n :=
  (ops.map fun L => L * rho * Lᴴ).sum

/-- The master-equation solver state: the Hamiltonian time array
(through its call-at-time contract only) and the fixed set of jump
operators. -/
structure MESolver (n : ℕ) where
  H : ℚ → Mat n
  jump_ops : List (Mat n)

namespace MESolver

/-- The cached `sum_no_jump = Σ_k L_k† L_k` (`torch.adjoint` is
conjugate-transposition of the trailing two dimensions). -/
def sum_no_jump {n : ℕ} (S : MESolver n) : Mat n :=
  (S.jump_ops.map fun L => Lᴴ * L).sum

/-- `MESolver.H_nh`: the non-Hermitian Hamiltonian
`H(t) - 0.5j * sum_no_jump`. -/
def H_nh {n : ℕ} (S : MESolver n) (t : ℚ) : Mat n :=
  S.H t - Cx.mk 0 (1 / 2) • S.sum_no_jump

/-- `MESolver.lindbladian`:
`-1j * (H_nh(t) @ rho - (H_nh(t) @ rho)†) + kraus_map(rho, jump_ops)`. -/
def lindbladian {n : ℕ} (S : MESolver n) (t : ℚ) (rho : Mat n) : Mat n :=
  Cx.mk 0 (-1) • (S.H_nh t * rho - (S.H_nh t * rho)ᴴ) + kraus_map rho S.jump_ops

end MESolver

/-- C7: with an empty jump-operator set the cached `sum_no_jump` is the
zero matrix, the dissipator (Kraus-map) term vanishes, and for every
time `t` and every density matrix `rho` (Hermitian, `rhoᴴ = rho`) the
derivative reduces to pure unitary evolution,
`-i (H(t) @ rho - rho @ H(t)†)`. -/
theorem MESolver.lindbladian_no_jump {n : ℕ} (S : MESolver n) (t : ℚ)
    (rho : Mat n) (hj : S.jump_ops = []) (hrho : rhoᴴ = rho) :
    S.sum_no_jump = 0 ∧ kraus_map rho S.jump_ops = 0 ∧
    S.lindbladian t rho = Cx.mk 0 (-1) • (S.H t * rho - rho * (S.H t)ᴴ) := by
  have hsum : S.sum_no_jump = 0 := by
    simp [MESolver.sum_no_jump, hj]
  have hkraus : kraus_map rho S.jump_ops = 0 := by
    simp [kraus_map, hj]
  refine ⟨hsum, hkraus, ?_⟩
  have hnh : S.H_nh t = S.H t := by
    simp [MESolver.H_nh, hsum]
  rw [MESolver.lindbladian, hkraus, hnh, add_zero, Matrix.conjTranspose_mul, hrho]

/-- Concrete solver for the C7 witness: `n = 1`, constant Hamiltonian
`[[i]]`, no jump operators, `rho = [[1]]` (Hermitian). -/
def solverExample : MESolver 1 :=
  ⟨fun _ => Matrix.of fun _ _ => Cx.I, []⟩

theorem MESolver.lindbladian_no_jump_witness :
    solverExample.sum_no_jump = 0 ∧ kraus_map (1 : Mat 1) solverExample.jump_ops = 0 ∧
    solverExample.lindbladian 0 1
      = Cx.mk 0 (-1) • (solverExample.H 0 * 1 - 1 * (solverExample.H 0)ᴴ) :=
  MESolver.lindbladian_no_jump solverExample 0 1 rfl Matrix.conjTranspose_one

/-! ## Negation, addition and subtraction consistency (C8) -/

theorem zipWith_entry_neg {n : ℕ} (vs : List Cx) (Ms : List (Mat n)) (i j : Fin n) :
    (List.zipWith (fun (v : Cx) (M : Mat n) => v * -(M i j)) vs Ms).sum
      = -(List.zipWith (fun (v : Cx) (M : Mat n) => v * M i j) vs Ms).sum := by
  induction vs generalizing Ms with
  | nil => simp
  | cons v vs ih =>
    cases Ms with
    | nil => simp
    | cons M Ms =>
      simp only [List.zipWith_cons_cons, List.sum_cons, ih]
      ring

theorem FactorTimeArray.negArrays_call {B : Type} {n : ℕ} (A : FactorTimeArray B n)
    (t : ℚ) (b : B) :
    (FactorTimeArray.mk A.factors (A.arrays.map fun M => -M) (-A.static)).call t b
      = -(A.call t b) := by
  refine Matrix.ext fun i j => ?_
  simp only [FactorTimeArray.call, Matrix.of_apply, List.zipWith_map_right,
    Matrix.neg_apply]
  rw [zipWith_entry_neg]
  ring

theorem TimeArray.neg_call {B : Type} {n : ℕ} (T : TimeArray B n) (t : ℚ) (b : B) :
    T.neg.call t b = -(T.call t b) := by
  cases T with
  | constant x => rfl
  | callable f f0 => rfl
  | pwc A => exact A.negArrays_call t b
  | modulated A => exact A.negArrays_call t b

theorem TimeArray.neg_wf {B : Type} {n : ℕ} {T : TimeArray B n} (h : T.wf) :
    T.neg.wf := by
  cases T with
  | constant x => trivial
  | callable f f0 => trivial
  | pwc A => simpa [TimeArray.neg, TimeArray.wf, FactorTimeArray.wf] using h
  | modulated A => simpa [TimeArray.neg, TimeArray.wf, FactorTimeArray.wf] using h

/-- Negation of an operand: array negation for a plain array,
`TimeArray.__neg__` for a time array. -/
def Operand.negOp {B : Type} {n : ℕ} : Operand B n → Operand B n
  | .arr m => .arr (-m)
  | .ta T => .ta T.neg

theorem Operand.negOp_call {B : Type} {n : ℕ} (y : Operand B n) (t : ℚ) (b : B) :
    y.negOp.call t b = -(y.call t b) := by
  cases y with
  | arr m => rfl
  | ta T => exact T.neg_call t b

theorem Operand.negOp_wf {B : Type} {n : ℕ} {y : Operand B n} (h : y.wf) :
    y.negOp.wf := by
  cases y with
  | arr m => trivial
  | ta T => exact TimeArray.neg_wf h

/-- The full Python `y + T` operator with a time array on the right:
when `y` is a plain array the sum reaches `T.__radd__`, i.e. `T + y`;
when `y` is a time array it is `y`'s own `+` operator. -/
def Operand.addTA {B : Type} {n : ℕ} (y : Operand B n) (T : TimeArray B n) :
    Option (TimeArray B n) :=
  match y with
  | .arr m => T.addOp (.arr m)
  | .ta Y => Y.addOp (.ta T)

theorem FactorTimeArray.concat_call {B : Type} {n : ℕ} (A1 A2 : FactorTimeArray B n)
    (h1 : A1.wf) (t : ℚ) (b : B) :
    (FactorTimeArray.mk (A1.factors ++ A2.factors) (A1.arrays ++ A2.arrays)
        (A1.static + A2.static)).call t b
      = A1.call t b + A2.call t b := by
  refine Matrix.ext fun i j => ?_
  simp only [FactorTimeArray.call, Matrix.of_apply, Matrix.add_apply, List.map_append]
  rw [List.zipWith_append _ _ _ _ _ (by simpa using h1), List.sum_append]
  ring

/-- Evaluation homomorphism of the full `+` operator: whenever
`A + y` is defined, its call at any time is the sum of the calls. -/
theorem TimeArray.addOp_call {B : Type} {n : ℕ} {A : TimeArray B n}
    {y : Operand B n} {R : TimeArray B n} (hA : A.wf) (hy : y.wf)
    (h : A.addOp y = some R) (t : ℚ) (b : B) :
    R.call t b = A.call t b + y.call t b := by
  cases A with
  | constant x =>
    cases y with
    | arr m =>
      simp only [TimeArray.addOp, TimeArray.addPrim, Option.some.injEq] at h
      subst h; rfl
    | ta T =>
      cases T with
      | constant z =>
        simp only [TimeArray.addOp, TimeArray.addPrim, Option.some.injEq] at h
        subst h; rfl
      | callable g g0 =>
        simp only [TimeArray.addOp, TimeArray.addPrim, Option.some.injEq] at h
        subst h
        exact add_comm (g t) x
      | pwc A2 =>
        simp only [TimeArray.addOp, TimeArray.addPrim, Option.some.injEq] at h
        subst h
        exact (A2.addArr_call x t b).trans (add_comm _ _)
      | modulated A2 =>
        simp only [TimeArray.addOp, TimeArray.addPrim, Option.some.injEq] at h
        subst h
        exact (A2.addArr_call x t b).trans (add_comm _ _)
  | callable f f0 =>
    cases y with
    | arr m =>
      simp only [TimeArray.addOp, TimeArray.addPrim, Option.some.injEq] at h
      subst h; rfl
    | ta T =>
      cases T with
      | constant z =>
        simp only [TimeArray.addOp, TimeArray.addPrim, Option.some.injEq] at h
        subst h; rfl
      | callable g g0 =>
        simp only [TimeArray.addOp, TimeArray.addPrim, Option.some.injEq] at h
        subst h; rfl
      | pwc A2 => simp [TimeArray.addOp, TimeArray.addPrim] at h
      | modulated A2 => simp [TimeArray.addOp, TimeArray.addPrim] at h
  | pwc A1 =>
    cases y with
    | arr m =>
      simp only [TimeArray.addOp, TimeArray.addPrim, Option.some.injEq] at h
      subst h
      exact A1.addArr_call m t b
    | ta T =>
      cases T with
      | constant z =>
        simp only [TimeArray.addOp, TimeArray.addPrim, Option.some.injEq] at h
        subst h
        exact A1.addArr_call z t b
      | callable g g0 => simp [TimeArray.addOp, TimeArray.addPrim] at h
      | pwc A2 =>
        simp only [TimeArray.addOp, TimeArray.addPrim, Option.some.injEq] at h
        subst h
        exact A1.concat_call A2 hA t b
      | modulated A2 => simp [TimeArray.addOp, TimeArray.addPrim] at h
  | modulated A1 =>
    cases y with
    | arr m =>
      simp only [TimeArray.addOp, TimeArray.addPrim, Option.some.injEq] at h
      subst h
      exact A1.addArr_call m t b
    | ta T =>
      cases T with
      | constant z =>
        simp only [TimeArray.addOp, TimeArray.addPrim, Option.some.injEq] at h
        subst h
        exact A1.addArr_call z t b
      | callable g g0 => simp [TimeArray.addOp, TimeArray.addPrim] at h
      | pwc A2 => simp [TimeArray.addOp, TimeArray.addPrim] at h
      | modulated A2 =>
        simp only [TimeArray.addOp, TimeArray.addPrim, Option.some.injEq] at h
        subst h
        exact A1.concat_call A2 hA t b

/-- C8: subtraction and the reversed forms are derived from `add` and
`negate` (`A - B = A + (-B)`, and `B` reverse-subtracted through
`A.__rsub__` is `B + (-A)`), and whenever the subtraction is defined its
call at every time is the difference of the calls. -/
theorem TimeArray.sub_consistency {B : Type} {n : ℕ} (A : TimeArray B n)
    (y : Operand B n) (R S : TimeArray B n) (hA : A.wf) (hy : y.wf)
    (hR : A.subOp y = some R) (hS : A.rsubOp y = some S) (t : ℚ) (b : B) :
    A.subOp y = A.addOp y.negOp
    ∧ A.rsubOp y = y.addTA A.neg
    ∧ R.call t b = A.call t b - y.call t b
    ∧ S.call t b = y.call t b - A.call t b := by
  have hsub_def : A.subOp y = A.addOp y.negOp := by
    cases y <;> rfl
  have hrsub_def : A.rsubOp y = y.addTA A.neg := by
    cases y <;> rfl
  refine ⟨hsub_def, hrsub_def, ?_, ?_⟩
  · rw [hsub_def] at hR
    have := TimeArray.addOp_call hA (Operand.negOp_wf hy) hR t b
    rw [this, Operand.negOp_call, ← sub_eq_add_neg]
  · cases y with
    | arr m =>
      have hS' : A.neg.addOp (.arr m) = some S := hS
      have hyw : (Operand.arr m : Operand B n).wf := trivial
      have := TimeArray.addOp_call (TimeArray.neg_wf hA) hyw hS' t b
      rw [this, TimeArray.neg_call]
      show -(A.call t b) + m = (Operand.arr m).call t b - A.call t b
      rw [neg_add_eq_sub]
      rfl
    | ta Y =>
      have hS' : Y.addOp (.ta A.neg) = some S := hS
      have hYwf : Y.wf := hy
      have hyw : (Operand.ta A.neg : Operand B n).wf := TimeArray.neg_wf hA
      have := TimeArray.addOp_call hYwf hyw hS' t b
      rw [this]
      show Y.call t b + A.neg.call t b = (Operand.ta Y).call t b - A.call t b
      rw [TimeArray.neg_call, ← sub_eq_add_neg]
      rfl

/-- Concrete data for the C8 witness: a one-factor PWC composite over
`B = Unit`, `n = 1`, and a plain-array operand. -/
def ftaExample : FactorTimeArray Unit 1 :=
  ⟨[Factor.pwc pwcExample], [Matrix.of fun _ _ => Cx.mk 1 0], Matrix.of fun _ _ => Cx.mk 0 0⟩

def taExample : TimeArray Unit 1 := TimeArray.pwc ftaExample

def matExample : Mat 1 := Matrix.of fun _ _ => Cx.mk 5 0

def opExample : Operand Unit 1 := Operand.arr matExample

/-- The value of `taExample.subOp opExample`. -/
def subResultExample : TimeArray Unit 1 := TimeArray.pwc (ftaExample.addArr (-matExample))

/-- The value of `taExample.rsubOp opExample`. -/
def rsubResultExample : TimeArray Unit 1 :=
  TimeArray.pwc
    ((FactorTimeArray.mk ftaExample.factors (ftaExample.arrays.map fun M => -M)
        (-ftaExample.static)).addArr matExample)

theorem TimeArray.sub_consistency_witness :
    taExample.subOp opExample = taExample.addOp opExample.negOp
    ∧ taExample.rsubOp opExample = opExample.addTA taExample.neg
    ∧ subResultExample.call 0 () = taExample.call 0 () - opExample.call 0 ()
    ∧ rsubResultExample.call 0 () = opExample.call 0 () - taExample.call 0 () :=
  TimeArray.sub_consistency taExample opExample subResultExample rsubResultExample
    rfl trivial rfl rfl 0 ()

/-! ## Construction validation (`_factory_pwc`, `_factory_modulated`, C9) -/

/-- The shape and dtype of a JAX array, as far as the construction
checks inspect it (`.shape`, `.ndim = len(shape)`, `.dtype`). -/
structure NDArray where
  shape : List ℕ
  dtype : String
deriving DecidableEq

/-- The construction-time `TypeError`s, with the data each message
interpolates (the shape-mismatch and not-a-square-matrix messages name
the actual shape; the unexpected-return-type message names the returned
type; the dtype-mismatch message names both dtypes). -/
inductive ConstructionError where
  | malformedTimes
  | valuesShapeMismatch (actual : List ℕ)
  | notSquareMatrix (actual : List ℕ)
  | unexpectedReturnType (ty : String)
  | dtypeMismatch (accepted : List String) (actual : String)
deriving DecidableEq

/-- Modelled from the spec: `check_time_array` lives in `_utils`, which
is not among the sources; the spec requires `times` to be 1-D (given
here by the type), strictly increasing, and of at least 2 elements,
signalling "malformed time breakpoints" otherwise. -/
def check_time_array (times : List ℚ) : Bool :=
  decide (times.Sorted (· < ·)) && decide (2 ≤ times.length)

/-- The data a successful `_factory_pwc` builds its
`PWCTimeArray([_PWCFactor(times, values)], array[None, ...])` from. -/
structure PWCValidated where
  times : List ℚ
  values : NDArray
  array : NDArray
deriving DecidableEq

/-- `array.ndim == 2 and array.shape[-1] == array.shape[-2]` (the
source tests the negation, short-circuiting so that the indexing is
only evaluated for 2-D shapes). -/
def isSquareMatrix (a : NDArray) : Prop :=
  a.shape.length = 2 ∧ a.shape.getD 1 0 = a.shape.getD 0 0

instance (a : NDArray) : Decidable (isSquareMatrix a) := by
  unfold isSquareMatrix
  infer_instance

/-- `_factory_pwc`, validation order as in the source: breakpoints
first (`check_time_array`), then the `values` leading dimension against
`len(times) - 1`, then squareness of `array`.  Every failure is raised
here, at construction, before any factor is built or called. -/
def factory_pwc (times : List ℚ) (values : NDArray) (array : NDArray) :
    Except ConstructionError PWCValidated :=
  if ¬ check_time_array times then
    .error .malformedTimes
  else if values.shape.getD 0 0 ≠ times.length - 1 then
    .error (.valuesShapeMismatch values.shape)
  else if ¬ isSquareMatrix array then
    .error (.notSquareMatrix array.shape)
  else
    .ok ⟨times, values, array⟩

/-- A Python value returned by a user callable: either a native JAX
array or something else (e.g. a plain nested list), carrying the name
of its runtime type. -/
inductive PyVal where
  | array (a : NDArray)
  | pyOther (ty : String)
deriving DecidableEq

/-- The data a successful `_factory_modulated` builds its
`ModulatedTimeArray([_ModulatedFactor(f, f0)], array[None, ...])` from. -/
structure ModulatedValidated where
  f0 : NDArray
  array : NDArray
deriving DecidableEq

/-- `_factory_modulated`, validation order as in the source: the
`callable(f)` check holds by the type of `f` here; then `f(0.0)` must
be a native array (else unexpected-return-type, naming the returned
type), its dtype must be the target complex dtype or its real
counterpart, and `array` must be a 2-D square matrix.  Every failure is
raised at construction, before any call at another time. -/
def factory_modulated (f : ℚ → PyVal) (array : NDArray)
    (dtype rdtype : String) : Except ConstructionError ModulatedValidated :=
  match f 0 with
  | .pyOther ty => .error (.unexpectedReturnType ty)
  | .array f0 =>
    if f0.dtype ∉ [dtype, rdtype] then
      .error (.dtypeMismatch [dtype, rdtype] f0.dtype)
    else if ¬ isSquareMatrix array then
      .error (.notSquareMatrix array.shape)
    else
      .ok ⟨f0, array⟩

/-- C9: with otherwise-valid inputs, a PWC `values` whose leading
dimension is not `len(times) - 1` fails construction with a
shape-mismatch error naming the actual shape; a non-square (or
non-2-D) `array` fails PWC or Modulated construction with a
not-a-square-matrix error naming the actual shape; a Modulated callable
returning a non-array at `f(0.0)` fails with an unexpected-return-type
error naming the returned type.  All three are errors of the factory
itself — raised at construction, before any `call(t)`. -/
theorem factory_validation_errors :
    (∀ (times : List ℚ) (values array : NDArray),
      check_time_array times = true →
      values.shape.getD 0 0 ≠ times.length - 1 →
      factory_pwc times values array = .error (.valuesShapeMismatch values.shape))
    ∧ (∀ (times : List ℚ) (values array : NDArray),
      check_time_array times = true →
      values.shape.getD 0 0 = times.length - 1 →
      ¬ isSquareMatrix array →
      factory_pwc times values array = .error (.notSquareMatrix array.shape))
    ∧ (∀ (f : ℚ → PyVal) (array : NDArray) (dtype rdtype : String) (f0 : NDArray),
      f 0 = .array f0 →
      f0.dtype ∈ [dtype, rdtype] →
      ¬ isSquareMatrix array →
      factory_modulated f array dtype rdtype = .error (.notSquareMatrix array.shape))
    ∧ (∀ (f : ℚ → PyVal) (array : NDArray) (dtype rdtype : String) (ty : String),
      f 0 = .pyOther ty →
      factory_modulated f array dtype rdtype = .error (.unexpectedReturnType ty)) := by
  refine ⟨?_, ?_, ?_, ?_⟩
  · intro times values array ht hv
    unfold factory_pwc
    rw [if_neg (not_not_intro ht), if_pos hv]
  · intro times values array ht hv ha
    unfold factory_pwc
    rw [if_neg (not_not_intro ht), if_neg (not_not_intro hv), if_pos ha]
  · intro f array dtype rdtype f0 hf hd ha
    unfold factory_modulated
    simp only [hf]
    rw [if_neg (not_not_intro hd), if_pos ha]
  · intro f array dtype rdtype ty hf
    unfold factory_modulated
    simp only [hf]

theorem factory_validation_errors_witness :
    factory_pwc [0, 1, 2] ⟨[5], "complex64"⟩ ⟨[2, 2], "complex64"⟩
      = .error (.valuesShapeMismatch [5])
    ∧ factory_pwc [0, 1, 2] ⟨[2], "complex64"⟩ ⟨[2, 3], "complex64"⟩
      = .error (.notSquareMatrix [2, 3])
    ∧ factory_modulated (fun _ => .array ⟨[], "float32"⟩) ⟨[2, 2, 2], "complex64"⟩
        "complex64" "float32" = .error (.notSquareMatrix [2, 2, 2])
    ∧ factory_modulated (fun _ => .pyOther "list") ⟨[2, 2], "complex64"⟩
        "complex64" "float32" = .error (.unexpectedReturnType "list") :=
  ⟨factory_validation_errors.1 [0, 1, 2] ⟨[5], "complex64"⟩ ⟨[2, 2], "complex64"⟩
      (by decide) (by decide),
   factory_validation_errors.2.1 [0, 1, 2] ⟨[2], "complex64"⟩ ⟨[2, 3], "complex64"⟩
      (by decide) (by decide) (by decide),
   factory_validation_errors.2.2.1 (fun _ => .array ⟨[], "float32"⟩)
      ⟨[2, 2, 2], "complex64"⟩ "complex64" "float32" ⟨[], "float32"⟩ rfl
      (by decide) (by decide),
   factory_validation_errors.2.2.2 (fun _ => .pyOther "list") ⟨[2, 2], "complex64"⟩
      "complex64" "float32" "list" rfl⟩

/-! ## Conversion utility `to_tensor` (C10) -/

/-- A torch tensor, as far as `to_tensor` observes one: a shape and the
flattened data. -/
structure Tensor where
  shape : List ℕ
  data : List Cx
deriving DecidableEq

/-- `torch.tensor([])`: the empty tensor of size `(0)`. -/
def emptyTensor : Tensor := ⟨[0], []⟩

/-- `torch.stack`: stacks same-shaped tensors along a new leading
dimension and raises `RuntimeError` on a shape mismatch (its empty-list
error is unreachable from `to_tensor`, which tests emptiness first). -/
def torchStack (ts : List Tensor) : Except String Tensor :=
  match ts with
  | [] => .error "stack expects a non-empty TensorList"
  | t :: rest =>
    if rest.all fun r => r.shape = t.shape then
      .ok ⟨ts.length :: t.shape, (ts.map Tensor.data).flatten⟩
    else
      .error "stack expects each tensor to be equal size"

/-- A value passed to `to_tensor`.  The conversions performed by the
external collaborators are abstracted into the constructors: a QuTiP
quantum object carries the tensor that `from_qutip` (imported from
`utils`, not among the sources; per the spec the conversion returns the
converted array) produces for it, and a NumPy array or torch tensor
carries the tensor `torch.as_tensor` yields.  `pyNone` is Python's
`None`; `pyOtherTy` is any unsupported value, carrying its type
name. -/
inductive PyObj where
  | pyNone
  | pyList (xs : List PyObj)
  | qobj (conv : Tensor)
  | nparray (conv : Tensor)
  | tensor (t : Tensor)
  | pyOtherTy (ty : String)

mutual

/-- `to_tensor`: `None` and the empty list produce the empty tensor of
size `(0)`; a non-empty list produces the stack of the recursive
conversion of its elements; a QuTiP object, NumPy array or torch tensor
produces the converted tensor; anything else raises a `TypeError`
naming the received type. -/
def to_tensor : PyObj → Except String Tensor
  | .pyNone => .ok emptyTensor
  | .pyList xs =>
    match xs with
    | [] => .ok emptyTensor
    | x :: rest => do torchStack (← to_tensor_list (x :: rest))
  | .qobj c => .ok c
  | .nparray c => .ok c
  | .tensor t => .ok t
  | .pyOtherTy ty =>
    .error ("Input of type " ++ ty ++ " is not supported. to_tensor only supports QuTiP quantum object, NumPy array, Python list or PyTorch tensor or list of these types.")

/-- The list comprehension `[to_tensor(y) for y in x]`, the first
raised error propagating out. -/
def to_tensor_list : List PyObj → Except String (List Tensor)
  | [] => .ok []
  | x :: xs => do
    let t ← to_tensor x
    let ts ← to_tensor_list xs
    .ok (t :: ts)

end

theorem to_tensor_list_eq_mapM (xs : List PyObj) :
    to_tensor_list xs = xs.mapM to_tensor := by
  rw [← List.mapM'_eq_mapM]
  induction xs with
  | nil => rfl
  | cons x xs ih =>
    show (to_tensor x >>= fun t => to_tensor_list xs >>= fun ts => Except.ok (t :: ts))
        = List.mapM' to_tensor (x :: xs)
    rw [List.mapM'_cons]
    cases to_tensor x with
    | error e => rfl
    | ok t =>
      show (to_tensor_list xs >>= fun ts => Except.ok (t :: ts))
          = List.cons t <$> List.mapM' to_tensor xs
      rw [← ih]
      cases to_tensor_list xs <;> rfl

/-- C10: `to_tensor` maps `None` and the empty list to the empty tensor
of size `(0)`, a non-empty list to the stack of the recursive
conversion of its elements, a QuTiP quantum object, NumPy array or
torch tensor to the converted tensor, and any other input to a
`TypeError` naming the received type. -/
theorem to_tensor_spec :
    to_tensor .pyNone = .ok emptyTensor
    ∧ to_tensor (.pyList []) = .ok emptyTensor
    ∧ (∀ xs : List PyObj, xs ≠ [] →
        to_tensor (.pyList xs) = xs.mapM to_tensor >>= torchStack)
    ∧ (∀ c, to_tensor (.qobj c) = .ok c)
    ∧ (∀ c, to_tensor (.nparray c) = .ok c)
    ∧ (∀ t, to_tensor (.tensor t) = .ok t)
    ∧ (∀ ty, to_tensor (.pyOtherTy ty)
        = .error ("Input of type " ++ ty ++ " is not supported. to_tensor only supports QuTiP quantum object, NumPy array, Python list or PyTorch tensor or list of these types.")) := by
  refine ⟨rfl, rfl, ?_, fun c => rfl, fun c => rfl, fun t => rfl, fun ty => rfl⟩
  intro xs hxs
  match xs, hxs with
  | x :: rest, _ =>
    show to_tensor_list (x :: rest) >>= torchStack = _
    rw [to_tensor_list_eq_mapM]

theorem to_tensor_spec_witness :
    to_tensor (.pyList [.tensor ⟨[1], [Cx.mk 1 0]⟩])
      = [PyObj.tensor ⟨[1], [Cx.mk 1 0]⟩].mapM to_tensor >>= torchStack :=
  to_tensor_spec.2.2.1 [.tensor ⟨[1], [Cx.mk 1 0]⟩] (List.cons_ne_nil _ _)
